import Mathlib

/-!
Verification development for the DrawingApp floor-plan geometry engine
(`geometry_utils.py`, `zone_manager.py`, `claude_analyzer.py`).

The Python code computes with floats; every float value is a rational
number, so the shallow embedding models coordinates, lengths, tolerances
and areas as exact rationals (`ℚ`).  The geometric core is stated over an
arbitrary `LinearOrderedField` so that the same definitions can be
instantiated at `ℚ` (the program model) and at `ℝ` (for the claims that
quantify over exact real arithmetic, e.g. rotation invariance).
Transcendental quantities (`math.atan2`, `math.sqrt` in the regularity
score) are modelled over `ℝ`.
-/

/- Batteries marks these rational operations `@[irreducible]`, which blocks
`decide`-style evaluation of the model on concrete inputs; restore the
default reducibility locally. -/
attribute [local semireducible] Rat.add Rat.mul Rat.sub Rat.inv

namespace DrawingApp

/-- A line segment record, modelling the Python dict
`{'start': (x, y), 'end': (x, y), 'length': l}`.
The Python key `end` is a Lean keyword, so the field is named `stop`. -/
structure LineG (α : Type) where
  start : α × α
  stop : α × α
  length : α
deriving DecidableEq

/-- The program instantiation: pixel/metric coordinates are floats,
modelled as exact rationals. -/
abbrev Line := LineG ℚ

variable {α : Type} [LinearOrderedField α]

/-- Default line used to model Python list indexing where the index is
provably in bounds. -/
def dfltLine : LineG α := ⟨(0, 0), (0, 0), 0⟩

/-- Squared Euclidean distance `(p1[0]-p2[0])**2 + (p1[1]-p2[1])**2`. -/
def sqDist (p q : α × α) : α := (p.1 - q.1) ^ 2 + (p.2 - q.2) ^ 2

/-- Models `math.sqrt(sqDist p q) <= tol`.  Over the reals
`√d ≤ t ↔ 0 ≤ t ∧ d ≤ t²`, which lets the embedding avoid the irrational
square root while computing exactly the same Boolean. -/
def distLe (p q : α × α) (tol : α) : Bool :=
  decide (0 ≤ tol) && decide (sqDist p q ≤ tol ^ 2)

/-- `GeometryUtils._points_near`: whether two points are within `tolerance`
of each other (Euclidean distance). -/
def points_near (p1 p2 : α × α) (tolerance : α) : Bool :=
  distLe p1 p2 tolerance

/-- Loop body of the `unique_vertices` pass of
`GeometryUtils._extract_vertices`: `kept` is the last vertex kept
(`unique_vertices[-1]`); each remaining vertex is appended only if it
differs from it. -/
def collapseAux {β : Type} [DecidableEq β] (kept : β) : List β → List β
  | [] => []
  | w :: rest =>
      if w = kept then collapseAux kept rest else w :: collapseAux w rest

/-- The `unique_vertices` pass of `GeometryUtils._extract_vertices`:
remove *consecutive* exact duplicates, keeping the first of each run. -/
def collapse {β : Type} [DecidableEq β] : List β → List β
  | [] => []
  | v :: rest => v :: collapseAux v rest

/-- The building loop of `GeometryUtils._extract_vertices`: for each line,
append its start point only if it differs from the last appended vertex,
then append its end point.  `vs` is the vertex list built so far (seeded
with the first line's start point, hence never empty). -/
def buildVertices : List (LineG α) → List (α × α) → List (α × α)
  | [], vs => vs
  | l :: rest, vs =>
      buildVertices rest
        ((if vs.getLast? = some l.start then vs else vs ++ [l.start]) ++ [l.stop])

/-- `GeometryUtils._extract_vertices`. -/
def _extract_vertices (lines : List (LineG α)) : List (α × α) :=
  match lines with
  | [] => []
  | l0 :: _ => collapse (buildVertices lines [l0.start])

/-- The cross-product summand `x1*y2 - x2*y1` of the shoelace loop. -/
def cross (p q : α × α) : α := p.1 * q.2 - q.1 * p.2

/-- The shoelace accumulation loop of `calculate_polygon_area`:
`for i in range(n): area += x_i*y_{(i+1)%n} - x_{(i+1)%n}*y_i`.
Pairing each vertex with its cyclic successor (`(i+1) % n`) is exactly
`vs.zip (vs.rotate 1)`. -/
def shoelaceSum (vs : List (α × α)) : α :=
  ((vs.zip (vs.rotate 1)).map fun pq => cross pq.1 pq.2).sum

/-- `GeometryUtils.calculate_polygon_area`. -/
def calculate_polygon_area (lines : List (LineG α)) : α :=
  if lines.length < 3 then 0
  else
    let vertices := _extract_vertices lines
    if vertices.length < 3 then 0
    else |shoelaceSum vertices| / 2

/-- `GeometryUtils.calculate_perimeter`: sum of the stored `length` fields. -/
def calculate_perimeter (lines : List (LineG α)) : α :=
  (lines.map fun l => l.length).sum

/-- `GeometryUtils.detect_closed_polygon` (tolerance in metric space,
default 0.1).  Note: the source guards only on the *segment* count; it
reads `vertices[0]` / `vertices[-1]`, modelled by `headD` / `getLastD`
(the list is nonempty whenever the guard is passed). -/
def detect_closed_polygon (lines : List (LineG α)) (tolerance : α) : Bool :=
  if lines.length < 3 then false
  else
    let vertices := _extract_vertices lines
    distLe (vertices.headD (0, 0)) (vertices.getLastD (0, 0)) tolerance

/-- `GeometryUtils.validate_zone_closure` (tolerance in pixel space,
default 10).  Unlike `detect_closed_polygon` this one also guards on the
extracted vertex count. -/
def validate_zone_closure (zone_lines : List (LineG α)) (tolerance : α) : Bool :=
  if zone_lines.length < 3 then false
  else
    let vertices := _extract_vertices zone_lines
    if vertices.length < 3 then false
    else distLe (vertices.headD (0, 0)) (vertices.getLastD (0, 0)) tolerance

/-- `GeometryUtils.calculate_zone_area`: convert pixel coordinates to
metric space (divide by `scale`) and apply the shoelace area.
(The source's `not zone_lines or len(zone_lines) < 3` guard is subsumed
by `length < 3`.) -/
def calculate_zone_area (zone_lines : List (LineG α)) (scale : α) : α :=
  if zone_lines.length < 3 then 0
  else
    calculate_polygon_area
      (zone_lines.map fun l =>
        ⟨(l.start.1 / scale, l.start.2 / scale), (l.stop.1 / scale, l.stop.2 / scale),
          l.length⟩)

/-- The 4-way endpoint proximity test in `find_connected_lines`:
two segments share (or nearly share) an endpoint. -/
def linesTouch (l1 l2 : LineG α) (tol : α) : Bool :=
  points_near l1.start l2.start tol || points_near l1.start l2.stop tol ||
  points_near l1.stop l2.start tol || points_near l1.stop l2.stop tol

/-- The inner `for i, line in enumerate(all_lines)` scan of
`find_connected_lines`: every index not already in `connected` whose line
touches the current line is added to `connected` and pushed on the
worklist.  (Python pushes with `to_check.append` and pops with
`to_check.pop()` — a LIFO stack; here the stack keeps its top at the
head, which is the same discipline.) -/
def scanConnected (tol : α) (cur : LineG α) :
    List (ℕ × LineG α) → List ℕ × List ℕ → List ℕ × List ℕ
  | [], st => st
  | (i, line) :: rest, (conn, stk) =>
      if i ∈ conn then scanConnected tol cur rest (conn, stk)
      else if linesTouch cur line tol then
        scanConnected tol cur rest (conn ++ [i], i :: stk)
      else scanConnected tol cur rest (conn, stk)

/-- The `while to_check:` loop of `find_connected_lines`.  The loop always
terminates because every stack push is accompanied by adding a fresh index
to `connected`; the fuel argument makes this explicit (`length + 1` fuel
is proved sufficient by the correctness theorem). -/
def connectedLoop (all_lines : List (LineG α)) (tol : α) :
    ℕ → List ℕ → List ℕ → List ℕ
  | 0, conn, _ => conn
  | _ + 1, conn, [] => conn
  | fuel + 1, conn, idx :: stk =>
      let st := scanConnected tol (all_lines.getD idx dfltLine) all_lines.enum (conn, stk)
      connectedLoop all_lines tol fuel st.1 st.2

/-- `GeometryUtils.find_connected_lines` (tolerance in pixel space,
default 10).  Python's final `list(connected)` iterates a `set` in an
implementation-defined order; the model returns discovery order, and all
claims about the result are stated order-insensitively (membership,
nodup). -/
def find_connected_lines (all_lines : List (LineG α)) (start_line_index : ℕ)
    (tolerance : α) : List ℕ :=
  if all_lines.length ≤ start_line_index then []
  else
    connectedLoop all_lines tolerance (all_lines.length + 1)
      [start_line_index] [start_line_index]

/-! ### Regularity scorer and the analyzer's measurement record

`math.atan2` and `math.sqrt` are transcendental, so this part of the model
lives over `ℝ`. -/

/-- `GeometryUtils._get_line_angle`: `math.degrees(math.atan2(dy, dx))`.
`math.atan2 y x` is the argument of the complex number `x + y·i`
(range `(-π, π]`, and `atan2 0 0 = 0 = Complex.arg 0`). -/
noncomputable def _get_line_angle (line : Line) : ℝ :=
  Complex.arg ⟨(line.stop.1 - line.start.1 : ℚ), (line.stop.2 - line.start.2 : ℚ)⟩
    * 180 / Real.pi

/-- Python's float modulo `a % b` for positive `b`: the representative of
`a` modulo `b` lying in `[0, b)`. -/
noncomputable def fmod (a b : ℝ) : ℝ := a - b * ⌊a / b⌋

/-- `GeometryUtils.calculate_shape_regularity`. -/
noncomputable def calculate_shape_regularity (lines : List Line) : ℝ :=
  if lines.length < 3 then 0
  else
    let lengths : List ℝ := lines.map fun l => (l.length : ℝ)
    let mean_length := lengths.sum / (lengths.length : ℝ)
    let variance :=
      (lengths.map fun l => (l - mean_length) ^ 2).sum / (lengths.length : ℝ)
    let std_dev := Real.sqrt variance
    let length_regularity :=
      if 0 < mean_length then 1 - min (std_dev / mean_length) 1 else 0
    let angles := lines.map fun l => fmod (_get_line_angle l) 180
    let angle_variance :=
      (angles.map fun a => (a - 90) ^ 2).sum / (angles.length : ℝ)
    let angle_regularity := 1 - min (angle_variance / 8100) 1
    length_regularity * 0.6 + angle_regularity * 0.4

/-- Python's built-in `round` to the nearest integer, ties to even. -/
def roundHalfEven (q : ℚ) : ℤ :=
  if Int.fract q < 1 / 2 then ⌊q⌋
  else if 1 / 2 < Int.fract q then ⌊q⌋ + 1
  else if 2 ∣ ⌊q⌋ then ⌊q⌋ else ⌊q⌋ + 1

/-- Python's `round(x, 2)` on exact rational values. -/
def round2 (q : ℚ) : ℚ := (roundHalfEven (q * 100) : ℚ) / 100

/-- Python's built-in `round`, ties to even, over `ℝ`. -/
noncomputable def roundHalfEvenR (x : ℝ) : ℤ :=
  if Int.fract x < 1 / 2 then ⌊x⌋
  else if 1 / 2 < Int.fract x then ⌊x⌋ + 1
  else if 2 ∣ ⌊x⌋ then ⌊x⌋ else ⌊x⌋ + 1

/-- Python's `round(x, 2)` over `ℝ`. -/
noncomputable def round2R (x : ℝ) : ℝ := (roundHalfEvenR (x * 100) : ℝ) / 100

/-- `ClaudeAnalyzer._convert_to_meters`: divide pixel coordinates by the
scale, keep the stored `length` field. -/
def convert_to_meters (lines : List Line) (scale : ℚ) : List Line :=
  lines.map fun l =>
    ⟨(l.start.1 / scale, l.start.2 / scale), (l.stop.1 / scale, l.stop.2 / scale),
      l.length⟩

/-- The `measurements` record assembled by
`ClaudeAnalyzer._perform_local_analysis`. -/
structure Measurements where
  area_m2 : ℚ
  perimeter_m : ℚ
  num_lines : ℕ
  is_closed : Bool
  regularity_index : ℝ

/-- The measurement part of `ClaudeAnalyzer._perform_local_analysis`:
convert to meters, then area (shoelace, metric), perimeter (stored
lengths), closure (default tolerance 0.1, metric) and regularity. -/
noncomputable def perform_local_measurements (lines : List Line) (scale : ℚ) :
    Measurements :=
  let lines_in_meters := convert_to_meters lines scale
  { area_m2 := round2 (calculate_polygon_area lines_in_meters)
    perimeter_m := round2 (calculate_perimeter lines)
    num_lines := lines.length
    is_closed := detect_closed_polygon lines_in_meters (1 / 10)
    regularity_index := round2R (calculate_shape_regularity lines) }

/-! ### Zone manager (`zone_manager.py`) -/

/-- A `Zone` (`zone_manager.Zone`), in its state after construction and
the validation/area assignment done by the zone manager.  `color = none`
models the randomly generated pastel fallback colour (the colour is
otherwise the type-derived default; no claim inspects it). -/
structure Zone where
  id : ℕ
  name : String
  zone_type : String
  line_indices : List ℕ
  color : Option String
  area : ℚ
  is_valid : Bool
deriving DecidableEq

/-- The `color` entries of `ZoneManager.ZONE_TYPES`
(`ZONE_TYPES.get(zone_type, {}).get('color')`). -/
def ZONE_TYPES_color : String → Option String
  | "sala" => some "#FFE4B5"
  | "cocina" => some "#FFB6C1"
  | "comedor" => some "#DDA0DD"
  | "recamara" => some "#B0E0E6"
  | "bano" => some "#87CEEB"
  | "estudio" => some "#98FB98"
  | "jardin" => some "#90EE90"
  | "garage" => some "#D3D3D3"
  | "pasillo" => some "#F5DEB3"
  | "terraza" => some "#FFDAB9"
  | "bodega" => some "#C0C0C0"
  | "lavanderia" => some "#E0FFFF"
  | "otro" => some "#F0F0F0"
  | _ => none

/-- `ZoneManager` state: the zone collection, the pixels-per-meter scale
and the next id to assign. -/
structure ZoneManager where
  zones : List Zone
  scale : ℚ
  next_id : ℕ
deriving DecidableEq

/-- `ZoneManager.__init__` (default scale 50): empty collection,
`next_id = 1`. -/
def initZoneManager (scale : ℚ) : ZoneManager := ⟨[], scale, 1⟩

/-- `[all_lines[i] for i in line_indices if i < len(all_lines)]`:
the member lines a zone's indices resolve to in a snapshot. -/
def resolveZoneLines (all_lines : List Line) (line_indices : List ℕ) : List Line :=
  (line_indices.filter fun i => i < all_lines.length).map fun i =>
    all_lines.getD i dfltLine

/-- `ZoneManager.create_zone`.  Returns the updated manager and the
created zone (`none` models Python's `None` result). -/
def ZoneManager.create_zone (zm : ZoneManager) (name zone_type : String)
    (line_indices : List ℕ) (all_lines : List Line) : ZoneManager × Option Zone :=
  if line_indices.isEmpty then (zm, none)
  else
    let zone_lines := resolveZoneLines all_lines line_indices
    if zone_lines.length < 3 then (zm, none)
    else
      let is_valid := validate_zone_closure zone_lines 20
      let zone : Zone :=
        { id := zm.next_id, name := name, zone_type := zone_type
          line_indices := line_indices, color := ZONE_TYPES_color zone_type
          area := if is_valid then calculate_zone_area zone_lines zm.scale else 0
          is_valid := is_valid }
      ({ zm with next_id := zm.next_id + 1, zones := zm.zones ++ [zone] }, some zone)

/-- `ZoneManager.get_zone`: first zone with the given id. -/
def ZoneManager.get_zone (zm : ZoneManager) (zone_id : ℕ) : Option Zone :=
  zm.zones.find? fun z => z.id == zone_id

/-- Helper for `delete_zone`: remove the first zone with the given id,
`none` if absent. -/
def deleteFirstZone (zone_id : ℕ) : List Zone → Option (List Zone)
  | [] => none
  | z :: rest =>
      if z.id == zone_id then some rest
      else (deleteFirstZone zone_id rest).map (z :: ·)

/-- `ZoneManager.delete_zone`: removes the zone if present and reports
success. -/
def ZoneManager.delete_zone (zm : ZoneManager) (zone_id : ℕ) : ZoneManager × Bool :=
  match deleteFirstZone zone_id zm.zones with
  | some zs => ({ zm with zones := zs }, true)
  | none => (zm, false)

/-- Python truthiness of an optional string argument (`if name:`):
`None` and `""` are falsy. -/
def truthyStr : Option String → Bool
  | none => false
  | some s => !s.isEmpty

/-- Python truthiness of an optional list argument: `None` and `[]` are
falsy. -/
def truthyList {γ : Type} : Option (List γ) → Bool
  | none => false
  | some l => !l.isEmpty

/-- The field mutations `ZoneManager.update_zone` performs on the zone it
found, in source order: name (if truthy), type + colour (if truthy),
membership + closure revalidation + conditional area recomputation
(if both the index list and the snapshot are truthy). -/
def applyZoneUpdate (scale : ℚ) (z : Zone) (name zone_type : Option String)
    (line_indices : Option (List ℕ)) (all_lines : Option (List Line)) : Zone :=
  let z1 := if truthyStr name then { z with name := name.getD z.name } else z
  let z2 :=
    if truthyStr zone_type then
      { z1 with zone_type := zone_type.getD z1.zone_type
                color := match ZONE_TYPES_color (zone_type.getD z1.zone_type) with
                  | some c => some c
                  | none => z1.color }
    else z1
  if truthyList line_indices && truthyList all_lines then
    let il := line_indices.getD []
    let zone_lines := resolveZoneLines (all_lines.getD []) il
    let valid := validate_zone_closure zone_lines 20
    { z2 with line_indices := il, is_valid := valid
              area := if valid then calculate_zone_area zone_lines scale else z2.area }
  else z2

/-- Helper for `update_zone`: rewrite the first zone with the given id
(the zone `get_zone` finds and mutates in place), `none` if absent. -/
def updateFirstZone (zone_id : ℕ) (f : Zone → Zone) : List Zone → Option (List Zone)
  | [] => none
  | z :: rest =>
      if z.id == zone_id then some (f z :: rest)
      else (updateFirstZone zone_id f rest).map (z :: ·)

/-- `ZoneManager.update_zone`: mutate the first zone with the given id and
report success; failure only when the id is absent. -/
def ZoneManager.update_zone (zm : ZoneManager) (zone_id : ℕ)
    (name zone_type : Option String) (line_indices : Option (List ℕ))
    (all_lines : Option (List Line)) : ZoneManager × Bool :=
  match updateFirstZone zone_id
      (fun z => applyZoneUpdate zm.scale z name zone_type line_indices all_lines)
      zm.zones with
  | some zs => ({ zm with zones := zs }, true)
  | none => (zm, false)

/-- `ZoneManager.clear_all_zones`: drop the collection and reset the id
counter to 1. -/
def ZoneManager.clear_all_zones (zm : ZoneManager) : ZoneManager :=
  { zm with zones := [], next_id := 1 }

/-- The `for i, line in enumerate(all_lines)` loop of
`ZoneManager.auto_detect_zones`, carrying the manager, the zones detected
in this call and the set of claimed line indices. -/
def autoDetectLoop (all_lines : List Line) :
    List (ℕ × Line) → ZoneManager → List Zone → List ℕ →
      ZoneManager × List Zone × List ℕ
  | [], zm, detected, used => (zm, detected, used)
  | (i, _) :: rest, zm, detected, used =>
      if i ∈ used then autoDetectLoop all_lines rest zm detected used
      else
        let connected := find_connected_lines all_lines i 10
        if 3 ≤ connected.length then
          let zone_lines := connected.map fun idx => all_lines.getD idx dfltLine
          if validate_zone_closure zone_lines 10 then
            match zm.create_zone ("Zona " ++ toString (detected.length + 1)) "otro"
                connected all_lines with
            | (zm1, some zone) =>
                autoDetectLoop all_lines rest zm1 (detected ++ [zone]) (used ++ connected)
            | (zm1, none) => autoDetectLoop all_lines rest zm1 detected used
          else autoDetectLoop all_lines rest zm detected used
        else autoDetectLoop all_lines rest zm detected used

/-- `ZoneManager.auto_detect_zones`: returns the updated manager and
exactly the zones created in this call. -/
def ZoneManager.auto_detect_zones (zm : ZoneManager) (all_lines : List Line) :
    ZoneManager × List Zone :=
  let r := autoDetectLoop all_lines all_lines.enum zm [] []
  (r.1, r.2.1)

/-! ### Operation sequences over one manager instance -/

/-- One mutating `ZoneManager` operation, with all its caller-supplied
arguments. -/
inductive Op where
  | create (name zone_type : String) (line_indices : List ℕ) (all_lines : List Line)
  | update (zone_id : ℕ) (name zone_type : Option String)
      (line_indices : Option (List ℕ)) (all_lines : Option (List Line))
  | delete (zone_id : ℕ)
  | autoDetect (all_lines : List Line)
  | clear
deriving DecidableEq

/-- Run one operation; also return the ids assigned to newly created
zones by this operation, in creation order. -/
def execOp (zm : ZoneManager) : Op → ZoneManager × List ℕ
  | .create name ztype idxs lines =>
      match zm.create_zone name ztype idxs lines with
      | (zm1, some z) => (zm1, [z.id])
      | (zm1, none) => (zm1, [])
  | .update zone_id name ztype idxs lines =>
      ((zm.update_zone zone_id name ztype idxs lines).1, [])
  | .delete zone_id => ((zm.delete_zone zone_id).1, [])
  | .autoDetect lines =>
      let r := zm.auto_detect_zones lines
      (r.1, r.2.map Zone.id)
  | .clear => (zm.clear_all_zones, [])

/-- Run a sequence of operations; return the final manager and the
concatenation of all assigned ids, in assignment order. -/
def execOps (zm : ZoneManager) : List Op → ZoneManager × List ℕ
  | [] => (zm, [])
  | op :: rest =>
      let r1 := execOp zm op
      let r2 := execOps r1.1 rest
      (r2.1, r1.2 ++ r2.2)

/-! ### Concrete inputs used by witnesses and counterexamples -/

/-- The seed scenario of `test_claude.py`: a 10 m × 8 m rectangle drawn at
scale 50 with pixel vertices (50,50)-(550,50)-(550,450)-(50,450). -/
def seedLines : List Line :=
  [⟨(50, 50), (550, 50), 10⟩, ⟨(550, 50), (550, 450), 8⟩,
   ⟨(550, 450), (50, 450), 10⟩, ⟨(50, 450), (50, 50), 8⟩]

/-- The seed rectangle already converted to metric space. -/
def seedLinesM : List Line :=
  [⟨(1, 1), (11, 1), 10⟩, ⟨(11, 1), (11, 9), 8⟩,
   ⟨(11, 9), (1, 9), 10⟩, ⟨(1, 9), (1, 1), 8⟩]

/-- Three degenerate segments, all endpoints at the origin: vertex
extraction yields the single vertex (0,0). -/
def degLines : List Line :=
  [⟨(0, 0), (0, 0), 0⟩, ⟨(0, 0), (0, 0), 0⟩, ⟨(0, 0), (0, 0), 0⟩]

/-- A closed pixel-space triangle (drawn in order, endpoints snapped). -/
def triLines : List Line :=
  [⟨(0, 0), (100, 0), 2⟩, ⟨(100, 0), (0, 100), 3⟩, ⟨(0, 100), (0, 0), 2⟩]

/-! ### Transforms of segment lists -/

/-- Apply a point transform to both endpoints of a segment (the stored
`length` field is untouched). -/
def mapLine (T : α × α → α × α) (l : LineG α) : LineG α := ⟨T l.start, T l.stop, l.length⟩

/-- Reverse one segment's direction (swap start and end). -/
def flipLine (l : LineG α) : LineG α := ⟨l.stop, l.start, l.length⟩

/-- The raw endpoint sequence `start₀, stop₀, start₁, stop₁, …` of a
segment list. -/
def flatPoints : List (LineG α) → List (α × α)
  | [] => []
  | l :: rest => l.start :: l.stop :: flatPoints rest

/-- Translation of the plane by a fixed offset. -/
def translatePoint (t : ℝ × ℝ) (p : ℝ × ℝ) : ℝ × ℝ := (p.1 + t.1, p.2 + t.2)

/-- Rotation of the plane by angle `θ` about the point `c`. -/
noncomputable def rotatePoint (θ : ℝ) (c : ℝ × ℝ) (p : ℝ × ℝ) : ℝ × ℝ :=
  (c.1 + Real.cos θ * (p.1 - c.1) - Real.sin θ * (p.2 - c.2),
   c.2 + Real.sin θ * (p.1 - c.1) + Real.cos θ * (p.2 - c.2))

/-- Formalisation of the closure claim's hypothesis "genuinely closed
loop": at least 3 segments, and each segment's end point is exactly the
cyclically next segment's start point. -/
def chainClosed (lines : List Line) : Bool :=
  decide (3 ≤ lines.length) &&
    (lines.zip (lines.rotate 1)).all fun ab => decide (ab.1.stop = ab.2.start)

/-! ### Lemmas about vertex extraction -/

theorem collapseAux_getLast? {β : Type} [DecidableEq β] :
    ∀ (l : List β) (kept : β),
      (kept :: collapseAux kept l).getLast? = (kept :: l).getLast? := by
  intro l
  induction l with
  | nil => intro kept; rfl
  | cons w rest ih =>
    intro kept
    simp only [collapseAux]
    by_cases h : w = kept
    · subst h
      rw [if_pos rfl, ih w, List.getLast?_cons_cons]
    · rw [if_neg h, List.getLast?_cons_cons, List.getLast?_cons_cons, ih w]

theorem collapse_getLast? {β : Type} [DecidableEq β] (xs : List β) :
    (collapse xs).getLast? = xs.getLast? := by
  cases xs with
  | nil => rfl
  | cons v rest => exact collapseAux_getLast? rest v

theorem collapse_head? {β : Type} [DecidableEq β] (xs : List β) :
    (collapse xs).head? = xs.head? := by
  cases xs <;> rfl

theorem collapseAux_append_dup {β : Type} [DecidableEq β] :
    ∀ (l t : List β) (kept x : β), (kept :: l).getLast? = some x →
      collapseAux kept (l ++ x :: t) = collapseAux kept (l ++ t) := by
  intro l
  induction l with
  | nil =>
    intro t kept x h
    obtain rfl : kept = x := by simpa using h
    simp [collapseAux]
  | cons w rest ih =>
    intro t kept x h
    have h' : (w :: rest).getLast? = some x := by
      rw [← List.getLast?_cons_cons (a := kept)]; exact h
    simp only [List.cons_append, collapseAux]
    by_cases hw : w = kept
    · subst hw
      rw [if_pos rfl, if_pos rfl]
      exact ih t w x h'
    · rw [if_neg hw, if_neg hw]
      congr 1
      exact ih t w x h'

theorem collapse_append_dup {β : Type} [DecidableEq β] {vs : List β} {x : β}
    (t : List β) (h : vs.getLast? = some x) :
    collapse (vs ++ x :: t) = collapse (vs ++ t) := by
  cases vs with
  | nil => simp at h
  | cons v l =>
    simp only [List.cons_append, collapse]
    rw [collapseAux_append_dup l t v x h]

theorem buildVertices_collapse :
    ∀ (ls : List (LineG α)) (vs : List (α × α)), vs ≠ [] →
      collapse (buildVertices ls vs) = collapse (vs ++ flatPoints ls) := by
  intro ls
  induction ls with
  | nil => intro vs _; simp [buildVertices, flatPoints]
  | cons l rest ih =>
    intro vs hvs
    simp only [buildVertices, flatPoints]
    by_cases h : vs.getLast? = some l.start
    · rw [if_pos h, ih (vs ++ [l.stop]) (by simp), collapse_append_dup _ h]
      simp
    · rw [if_neg h, ih ((vs ++ [l.start]) ++ [l.stop]) (by simp)]
      simp

theorem extract_eq_collapse_flat (lines : List (LineG α)) :
    _extract_vertices lines = collapse (flatPoints lines) := by
  cases lines with
  | nil => rfl
  | cons l0 rest =>
    show collapse (buildVertices (l0 :: rest) [l0.start]) = _
    rw [buildVertices_collapse (l0 :: rest) [l0.start] (by simp)]
    simp [flatPoints, collapse, collapseAux]

theorem flatPoints_append (a b : List (LineG α)) :
    flatPoints (a ++ b) = flatPoints a ++ flatPoints b := by
  induction a with
  | nil => rfl
  | cons l rest ih => simp [flatPoints, ih]

theorem flatPoints_map (T : α × α → α × α) (lines : List (LineG α)) :
    flatPoints (lines.map (mapLine T)) = (flatPoints lines).map T := by
  induction lines with
  | nil => rfl
  | cons l rest ih => simp [flatPoints, mapLine, ih]

theorem flatPoints_flip_reverse (lines : List (LineG α)) :
    flatPoints ((lines.map flipLine).reverse) = (flatPoints lines).reverse := by
  induction lines with
  | nil => rfl
  | cons l rest ih =>
    simp [flatPoints, flipLine, flatPoints_append, ih]

theorem collapseAux_map {β γ : Type} [DecidableEq β] [DecidableEq γ] (f : β → γ)
    (hf : Function.Injective f) :
    ∀ (l : List β) (kept : β),
      collapseAux (f kept) (l.map f) = (collapseAux kept l).map f := by
  intro l
  induction l with
  | nil => intro kept; rfl
  | cons w rest ih =>
    intro kept
    simp only [List.map_cons, collapseAux]
    by_cases h : w = kept
    · rw [if_pos (by rw [h]), if_pos h, ih]
    · rw [if_neg (fun hc => h (hf hc)), if_neg h, List.map_cons, ih w]

theorem collapse_map {β γ : Type} [DecidableEq β] [DecidableEq γ] (f : β → γ)
    (hf : Function.Injective f) (xs : List β) :
    collapse (xs.map f) = (collapse xs).map f := by
  cases xs with
  | nil => rfl
  | cons v rest =>
    simp only [List.map_cons, collapse, collapseAux_map f hf]

/-! ### Lemmas about the distance comparison -/

theorem sqDist_comm (p q : α × α) : sqDist p q = sqDist q p := by
  simp only [sqDist]; ring

theorem distLe_comm (p q : α × α) (t : α) : distLe p q t = distLe q p t := by
  simp only [distLe, sqDist_comm]

theorem distLe_mono {p q : α × α} {t t' : α} (h : t ≤ t')
    (hd : distLe p q t = true) : distLe p q t' = true := by
  simp only [distLe, Bool.and_eq_true, decide_eq_true_eq] at hd ⊢
  exact ⟨hd.1.trans h, hd.2.trans (pow_le_pow_left₀ hd.1 h 2)⟩

theorem validate_zone_closure_short {l : List (LineG α)} {t : α}
    (h : l.length < 3) : validate_zone_closure l t = false := by
  simp only [validate_zone_closure, if_pos h]

theorem validate_zone_closure_mono {l : List (LineG α)} {t t' : α} (h : t ≤ t')
    (hv : validate_zone_closure l t = true) : validate_zone_closure l t' = true := by
  simp only [validate_zone_closure] at hv ⊢
  split_ifs at hv ⊢
  exact distLe_mono h hv

/-! ### C1 -/

/-- **C1** (amended).  If vertex extraction yields fewer than 3 vertices,
the area computation returns 0 and the pixel-space zone-closure
validation returns false.  General closed-polygon detection guards only
on the *segment* count: it returns false for fewer than 3 segments, but
(the correction) it may return true on ≥ 3 segments whose extracted
vertices number fewer than 3 — see the counterexample. -/
theorem degenerate_vertices_area_closure (lines : List Line) (tol : ℚ)
    (h : (_extract_vertices lines).length < 3) :
    calculate_polygon_area lines = 0 ∧ validate_zone_closure lines tol = false ∧
      (lines.length < 3 → detect_closed_polygon lines tol = false) := by
  refine ⟨?_, ?_, fun h3 => ?_⟩
  · by_cases h1 : lines.length < 3
    · simp [calculate_polygon_area, h1]
    · simp [calculate_polygon_area, h1, if_pos h]
  · by_cases h1 : lines.length < 3
    · simp [validate_zone_closure, h1]
    · simp [validate_zone_closure, h1, if_pos h]
  · simp [detect_closed_polygon, h3]

/-- **C1, counterexample.**  Three degenerate segments collapse to a
single extracted vertex, yet `detect_closed_polygon` reports a closed
polygon (its guard looks only at the segment count). -/
theorem degenerate_vertices_detect_cex :
    (_extract_vertices degLines).length < 3 ∧
      detect_closed_polygon degLines (1 / 10) = true := by
  exact ⟨by decide, by decide⟩

/-- **C1, witness.** -/
theorem degenerate_vertices_area_closure_witness :
    (_extract_vertices degLines).length < 3 ∧ calculate_polygon_area degLines = 0 ∧
      validate_zone_closure degLines 10 = false :=
  ⟨by decide, (degenerate_vertices_area_closure degLines 10 (by decide)).1,
    (degenerate_vertices_area_closure degLines 10 (by decide)).2.1⟩

/-! ### C8 -/

/-- **C8** (amended).  Reversing the segment list alone does **not**
preserve the closure verdict, even for a genuinely closed loop (see the
counterexample).  What does hold, for every segment list and tolerance:
reversing the *traversal* — reversing the list while also swapping each
segment's start/end — leaves `detect_closed_polygon` unchanged. -/
theorem detect_closed_traversal_reversal (lines : List Line) (tol : ℚ) :
    detect_closed_polygon ((lines.map flipLine).reverse) tol =
      detect_closed_polygon lines tol := by
  simp only [detect_closed_polygon, List.length_reverse, List.length_map]
  split_ifs with h
  · rfl
  · rw [extract_eq_collapse_flat, extract_eq_collapse_flat, flatPoints_flip_reverse,
      List.headD_eq_head?, List.headD_eq_head?, List.getLastD_eq_getLast?,
      List.getLastD_eq_getLast?, collapse_head?, collapse_head?, collapse_getLast?,
      collapse_getLast?, List.head?_reverse, List.getLast?_reverse]
    exact distLe_comm _ _ _

/-- **C8, counterexample.**  The seed rectangle (in metric space) is a
genuinely closed loop and is detected as closed, but reversing the
segment-list order alone makes `detect_closed_polygon` report it open. -/
theorem detect_closed_list_reversal_cex :
    chainClosed seedLinesM = true ∧ detect_closed_polygon seedLinesM (1 / 10) = true ∧
      detect_closed_polygon seedLinesM.reverse (1 / 10) = false := by
  exact ⟨by decide, by decide, by decide⟩

/-! ### C6 -/

theorem rotate_one_map {β γ : Type} (f : β → γ) (l : List β) :
    (l.map f).rotate 1 = (l.rotate 1).map f := by
  cases l with
  | nil => rfl
  | cons a t => simp [List.rotate_cons_succ, List.rotate_zero]

theorem sum_map_add_distrib {γ : Type} (l : List γ) (f g : γ → α) :
    (l.map fun x => f x + g x).sum = (l.map f).sum + (l.map g).sum := by
  induction l with
  | nil => simp
  | cons a t ih => simp only [List.map_cons, List.sum_cons, ih]; ring

theorem sum_map_sub_distrib {γ : Type} (l : List γ) (f g : γ → α) :
    (l.map fun x => f x - g x).sum = (l.map f).sum - (l.map g).sum := by
  induction l with
  | nil => simp
  | cons a t ih => simp only [List.map_cons, List.sum_cons, ih]; ring

/-- The shoelace cyclic sum is unchanged by any point transform `T` that
changes each cross term only by a telescoping potential `g`. -/
theorem shoelaceSum_map (T : α × α → α × α) (g : α × α → α)
    (hT : ∀ p q, cross (T p) (T q) = cross p q + (g p - g q)) (vs : List (α × α)) :
    shoelaceSum (vs.map T) = shoelaceSum vs := by
  unfold shoelaceSum
  rw [rotate_one_map, List.zip_map, List.map_map]
  have h1 : ((fun pq : (α × α) × (α × α) => cross pq.1 pq.2) ∘ Prod.map T T) =
      fun pq : (α × α) × (α × α) => cross pq.1 pq.2 + ((g pq.1) - (g pq.2)) := by
    funext pq
    exact hT pq.1 pq.2
  rw [h1, sum_map_add_distrib, sum_map_sub_distrib]
  have hfst : ((vs.zip (vs.rotate 1)).map fun pq => g pq.1) = vs.map g := by
    have : ((vs.zip (vs.rotate 1)).map fun pq => g pq.1) =
        ((vs.zip (vs.rotate 1)).map Prod.fst).map g := by
      rw [List.map_map]; rfl
    rw [this, List.map_fst_zip]
    simp [List.length_rotate]
  have hsnd : ((vs.zip (vs.rotate 1)).map fun pq => g pq.2) = (vs.rotate 1).map g := by
    have : ((vs.zip (vs.rotate 1)).map fun pq => g pq.2) =
        ((vs.zip (vs.rotate 1)).map Prod.snd).map g := by
      rw [List.map_map]; rfl
    rw [this, List.map_snd_zip]
    simp [List.length_rotate]
  rw [hfst, hsnd, ((List.rotate_perm vs 1).map g).sum_eq]
  ring

/-- Shoelace area is unchanged by any injective transform of all segment
endpoints whose cross terms telescope. -/
theorem calculate_polygon_area_map (T : α × α → α × α) (g : α × α → α)
    (hinj : Function.Injective T)
    (hT : ∀ p q, cross (T p) (T q) = cross p q + (g p - g q))
    (lines : List (LineG α)) :
    calculate_polygon_area (lines.map (mapLine T)) = calculate_polygon_area lines := by
  have hv : _extract_vertices (lines.map (mapLine T)) =
      (_extract_vertices lines).map T := by
    rw [extract_eq_collapse_flat, extract_eq_collapse_flat, flatPoints_map,
      collapse_map T hinj]
  simp only [calculate_polygon_area, List.length_map, hv, shoelaceSum_map T g hT]

theorem rotatePoint_injective (θ : ℝ) (c : ℝ × ℝ) :
    Function.Injective (rotatePoint θ c) := by
  intro p q h
  have hs := Real.sin_sq_add_cos_sq θ
  rw [Prod.ext_iff] at h
  obtain ⟨h1, h2⟩ := h
  simp only [rotatePoint] at h1 h2
  have e1 : Real.cos θ * (p.1 - q.1) - Real.sin θ * (p.2 - q.2) = 0 := by linarith
  have e2 : Real.sin θ * (p.1 - q.1) + Real.cos θ * (p.2 - q.2) = 0 := by linarith
  have hx : p.1 = q.1 := by
    linear_combination Real.cos θ * e1 + Real.sin θ * e2 - (p.1 - q.1) * hs
  have hy : p.2 = q.2 := by
    linear_combination (-Real.sin θ) * e1 + Real.cos θ * e2 - (p.2 - q.2) * hs
  exact Prod.ext_iff.mpr ⟨hx, hy⟩

/-- **C6.**  Over exact real arithmetic, applying one fixed rotation
about a point to every segment endpoint, or translating every segment
endpoint by one fixed offset, leaves `calculate_polygon_area` unchanged. -/
theorem polygon_area_rigid_motion_invariant (lines : List (LineG ℝ)) (θ : ℝ)
    (c t : ℝ × ℝ) :
    calculate_polygon_area (lines.map (mapLine (rotatePoint θ c))) =
        calculate_polygon_area lines ∧
      calculate_polygon_area (lines.map (mapLine (translatePoint t))) =
        calculate_polygon_area lines := by
  constructor
  · apply calculate_polygon_area_map (rotatePoint θ c)
      (fun p => cross (Real.cos θ * p.1 - Real.sin θ * p.2,
        Real.sin θ * p.1 + Real.cos θ * p.2)
        (c.1 - (Real.cos θ * c.1 - Real.sin θ * c.2),
         c.2 - (Real.sin θ * c.1 + Real.cos θ * c.2)))
      (rotatePoint_injective θ c)
    intro p q
    have hs := Real.sin_sq_add_cos_sq θ
    simp only [cross, rotatePoint]
    linear_combination (p.1 * q.2 - q.1 * p.2) * hs
  · apply calculate_polygon_area_map (translatePoint t) (fun p => cross p t)
    · intro p q h
      rw [Prod.ext_iff] at h
      obtain ⟨h1, h2⟩ := h
      simp only [translatePoint] at h1 h2
      exact Prod.ext_iff.mpr ⟨by linarith, by linarith⟩
    · intro p q
      simp only [cross, translatePoint]
      ring

/-! ### C3 -/

/-- The zone record `create_zone` builds when the guards pass (proof-layer
abbreviation of the record literal inside `ZoneManager.create_zone`). -/
def createdZone (zm : ZoneManager) (name zone_type : String) (line_indices : List ℕ)
    (all_lines : List Line) : Zone :=
  { id := zm.next_id, name := name, zone_type := zone_type
    line_indices := line_indices, color := ZONE_TYPES_color zone_type
    area :=
      if validate_zone_closure (resolveZoneLines all_lines line_indices) 20 then
        calculate_zone_area (resolveZoneLines all_lines line_indices) zm.scale
      else 0
    is_valid := validate_zone_closure (resolveZoneLines all_lines line_indices) 20 }

theorem create_zone_unresolvable (zm : ZoneManager) (name ztype : String)
    (idxs : List ℕ) (lines : List Line)
    (h : (resolveZoneLines lines idxs).length < 3) :
    zm.create_zone name ztype idxs lines = (zm, none) := by
  by_cases h1 : idxs.isEmpty
  · simp [ZoneManager.create_zone, h1]
  · simp [ZoneManager.create_zone, h1, if_pos h]

theorem create_zone_resolvable (zm : ZoneManager) (name ztype : String)
    (idxs : List ℕ) (lines : List Line)
    (h3 : 3 ≤ (resolveZoneLines lines idxs).length) :
    zm.create_zone name ztype idxs lines =
      ({ zm with next_id := zm.next_id + 1
                 zones := zm.zones ++ [createdZone zm name ztype idxs lines] },
       some (createdZone zm name ztype idxs lines)) := by
  have hne : idxs.isEmpty = false := by
    cases idxs with
    | nil => simp [resolveZoneLines] at h3
    | cons a l => rfl
  have hlen : ¬ (resolveZoneLines lines idxs).length < 3 := by omega
  simp [ZoneManager.create_zone, hne, hlen, createdZone]

/-- **C3.**  `create_zone` produces and stores nothing when fewer than 3
of the supplied indices resolve to segments of the snapshot; otherwise it
appends exactly one new zone to the collection — even when the resolved
segments fail the pixel-space closure check at tolerance 20, in which case
the stored zone has `is_valid = false` and `area = 0`. -/
theorem create_zone_spec (zm : ZoneManager) (name ztype : String) (idxs : List ℕ)
    (lines : List Line) :
    ((resolveZoneLines lines idxs).length < 3 →
        zm.create_zone name ztype idxs lines = (zm, none)) ∧
      (3 ≤ (resolveZoneLines lines idxs).length →
        ∃ z, zm.create_zone name ztype idxs lines =
            ({ zm with next_id := zm.next_id + 1, zones := zm.zones ++ [z] }, some z) ∧
          (validate_zone_closure (resolveZoneLines lines idxs) 20 = false →
            z.is_valid = false ∧ z.area = 0)) := by
  refine ⟨create_zone_unresolvable zm name ztype idxs lines, fun h3 => ?_⟩
  refine ⟨createdZone zm name ztype idxs lines,
    create_zone_resolvable zm name ztype idxs lines h3, fun hval => ?_⟩
  simp [createdZone, hval]

/-- **C3, witness.** -/
theorem create_zone_spec_witness :
    ((resolveZoneLines degLines [0]).length < 3 ∧
        (initZoneManager 50).create_zone "A" "otro" [0] degLines =
          (initZoneManager 50, none)) ∧
      (3 ≤ (resolveZoneLines degLines [0, 1, 2]).length ∧
        ∃ z, (initZoneManager 50).create_zone "B" "otro" [0, 1, 2] degLines =
            ({ initZoneManager 50 with
                next_id := (initZoneManager 50).next_id + 1,
                zones := (initZoneManager 50).zones ++ [z] }, some z) ∧
          z.is_valid = false ∧ z.area = 0) := by
  refine ⟨⟨by decide, (create_zone_spec (initZoneManager 50) "A" "otro" [0] degLines).1
      (by decide)⟩, by decide, ?_⟩
  obtain ⟨z, hz, himp⟩ :=
    (create_zone_spec (initZoneManager 50) "B" "otro" [0, 1, 2] degLines).2 (by decide)
  exact ⟨z, hz, himp (by decide)⟩

/-! ### C2 -/

theorem find?_updateFirstZone (zone_id : ℕ) (f : Zone → Zone)
    (hf : ∀ z, (f z).id = z.id) :
    ∀ (zs : List Zone) (z : Zone),
      zs.find? (fun z => z.id == zone_id) = some z →
      ∃ zs', updateFirstZone zone_id f zs = some zs' ∧
        zs'.find? (fun z => z.id == zone_id) = some (f z) := by
  intro zs
  induction zs with
  | nil => intro z h; simp at h
  | cons z0 rest ih =>
    intro z h
    by_cases h0 : z0.id = zone_id
    · have hz0 : z = z0 := by
        rw [List.find?_cons_of_pos _ (by simpa using h0)] at h
        exact (Option.some.injEq _ _ ▸ h).symm
      subst hz0
      refine ⟨f z :: rest, ?_, ?_⟩
      · simp [updateFirstZone, h0]
      · exact List.find?_cons_of_pos _ (by simp [hf, h0])
    · rw [List.find?_cons_of_neg _ (by simpa using h0)] at h
      obtain ⟨zs', h1, h2⟩ := ih z h
      refine ⟨z0 :: zs', ?_, ?_⟩
      · simp [updateFirstZone, h0, h1]
      · rw [List.find?_cons_of_neg _ (by simpa using h0)]
        exact h2

theorem applyZoneUpdate_membership_only (sc : ℚ) (z : Zone) (idxs : List ℕ)
    (lines : List Line) (hidx : idxs ≠ []) (hlines : lines ≠ [])
    (hcount : (resolveZoneLines lines idxs).length < 3) :
    applyZoneUpdate sc z none none (some idxs) (some lines) =
      { z with line_indices := idxs, is_valid := false } := by
  have h1 : idxs.isEmpty = false := by
    cases idxs with
    | nil => exact absurd rfl hidx
    | cons a l => rfl
  have h2 : lines.isEmpty = false := by
    cases lines with
    | nil => exact absurd rfl hlines
    | cons a l => rfl
  have hval : validate_zone_closure (resolveZoneLines lines idxs) 20 = false :=
    validate_zone_closure_short hcount
  simp [applyZoneUpdate, truthyStr, truthyList, h1, h2, hval]

/-- **C2** (amended).  Updating a present zone's membership with a
nonempty index list of which fewer than 3 resolve in the (nonempty)
snapshot is *not* rejected: the update returns success, installs the new
membership, and merely flags the zone `is_valid = false` (its area is not
recomputed). -/
theorem update_zone_unresolvable_membership (zm : ZoneManager) (zone_id : ℕ)
    (idxs : List ℕ) (lines : List Line) (zold : Zone)
    (hz : zm.get_zone zone_id = some zold) (hidx : idxs ≠ []) (hlines : lines ≠ [])
    (hcount : (resolveZoneLines lines idxs).length < 3) :
    (zm.update_zone zone_id none none (some idxs) (some lines)).2 = true ∧
      (zm.update_zone zone_id none none (some idxs) (some lines)).1.get_zone zone_id =
        some { zold with line_indices := idxs, is_valid := false } := by
  have hf : ∀ z : Zone,
      (applyZoneUpdate zm.scale z none none (some idxs) (some lines)).id = z.id := by
    intro z
    rw [applyZoneUpdate_membership_only zm.scale z idxs lines hidx hlines hcount]
  obtain ⟨zs', h1, h2⟩ := find?_updateFirstZone zone_id _ hf zm.zones zold hz
  rw [applyZoneUpdate_membership_only zm.scale zold idxs lines hidx hlines hcount] at h2
  have hu : zm.update_zone zone_id none none (some idxs) (some lines) =
      ({ zm with zones := zs' }, true) := by
    simp only [ZoneManager.update_zone, h1]
  rw [hu]
  exact ⟨rfl, h2⟩

/-- **C2, counterexample.**  A manager holding the valid triangle zone 1:
updating its membership to the two indices `[0, 1]` (fewer than 3
resolvable) returns `true` and installs `[0, 1]` — the claim says the
update is rejected and the membership not installed. -/
theorem update_zone_unresolvable_cex :
    ((((initZoneManager 50).create_zone "A" "sala" [0, 1, 2] triLines).1).update_zone 1
        none none (some [0, 1]) (some triLines)).2 = true ∧
      (((((initZoneManager 50).create_zone "A" "sala" [0, 1, 2] triLines).1).update_zone 1
          none none (some [0, 1]) (some triLines)).1.get_zone 1).map
        Zone.line_indices = some [0, 1] := by
  exact ⟨by decide, by decide⟩

/-- **C2, witness.** -/
theorem update_zone_unresolvable_membership_witness :
    ((((initZoneManager 50).create_zone "A" "sala" [0, 1, 2] triLines).1).get_zone 1 =
        some ⟨1, "A", "sala", [0, 1, 2], some "#FFE4B5", 2, true⟩) ∧
      ((resolveZoneLines triLines [0, 1]).length < 3) ∧
      ((((initZoneManager 50).create_zone "A" "sala" [0, 1, 2] triLines).1).update_zone 1
          none none (some [0, 1]) (some triLines)).2 = true ∧
      ((((initZoneManager 50).create_zone "A" "sala" [0, 1, 2] triLines).1).update_zone 1
          none none (some [0, 1]) (some triLines)).1.get_zone 1 =
        some ⟨1, "A", "sala", [0, 1], some "#FFE4B5", 2, false⟩ := by
  refine ⟨by decide, by decide, ?_, ?_⟩
  · exact (update_zone_unresolvable_membership _ 1 [0, 1] triLines
      ⟨1, "A", "sala", [0, 1, 2], some "#FFE4B5", 2, true⟩ (by decide) (by decide)
      (by decide) (by decide)).1
  · exact (update_zone_unresolvable_membership _ 1 [0, 1] triLines
      ⟨1, "A", "sala", [0, 1, 2], some "#FFE4B5", 2, true⟩ (by decide) (by decide)
      (by decide) (by decide)).2

/-! ### C5 -/

/-- **C5.**  The seed scenario (the 4-segment rectangle of
`test_claude.py`, scale 50, stored lengths 10, 8, 10, 8): the local
measurement record reports exactly `area_m2 = 80`, `perimeter_m = 36`,
`is_closed = true`. -/
theorem seed_rectangle_measurements :
    (perform_local_measurements seedLines 50).area_m2 = 80 ∧
      (perform_local_measurements seedLines 50).perimeter_m = 36 ∧
      (perform_local_measurements seedLines 50).is_closed = true := by
  exact ⟨by decide, by decide, by decide⟩

/-! ### C9 -/

theorem regularity_core (M S V : ℝ) (hS : 0 ≤ S) (hV : 0 ≤ V) :
    0 ≤ (if 0 < M then 1 - min (S / M) 1 else 0) * 0.6 + (1 - min (V / 8100) 1) * 0.4 ∧
      (if 0 < M then 1 - min (S / M) 1 else 0) * 0.6 + (1 - min (V / 8100) 1) * 0.4 ≤ 1 := by
  have hx : 0 ≤ (if 0 < M then 1 - min (S / M) 1 else 0) ∧
      (if 0 < M then 1 - min (S / M) 1 else 0) ≤ 1 := by
    split_ifs with hm
    · have h0 : 0 ≤ min (S / M) 1 := le_min (div_nonneg hS hm.le) zero_le_one
      have h1 : min (S / M) 1 ≤ 1 := min_le_right _ _
      constructor <;> linarith
    · norm_num
  have hy : 0 ≤ 1 - min (V / 8100) 1 ∧ 1 - min (V / 8100) 1 ≤ 1 := by
    have h0 : 0 ≤ min (V / 8100) 1 := le_min (by positivity) zero_le_one
    have h1 : min (V / 8100) 1 ≤ 1 := min_le_right _ _
    constructor <;> linarith
  constructor <;> nlinarith [hx.1, hx.2, hy.1, hy.2]

/-- **C9.**  The shape-regularity score always lies in `[0, 1]`, and for
fewer than 3 segments it is exactly 0. -/
theorem shape_regularity_bounds (lines : List Line) :
    0 ≤ calculate_shape_regularity lines ∧ calculate_shape_regularity lines ≤ 1 ∧
      (lines.length < 3 → calculate_shape_regularity lines = 0) := by
  by_cases h : lines.length < 3
  · simp [calculate_shape_regularity, h]
  · have hV : 0 ≤ ((lines.map fun l => fmod (_get_line_angle l) 180).map
        fun a => (a - 90) ^ 2).sum /
          (((lines.map fun l => fmod (_get_line_angle l) 180).length : ℕ) : ℝ) := by
      refine div_nonneg (List.sum_nonneg ?_) (Nat.cast_nonneg _)
      intro x hx
      obtain ⟨a, _, rfl⟩ := List.mem_map.mp hx
      positivity
    simp only [calculate_shape_regularity, if_neg h]
    exact ⟨(regularity_core _ _ _ (Real.sqrt_nonneg _) hV).1,
      (regularity_core _ _ _ (Real.sqrt_nonneg _) hV).2, fun h3 => absurd h3 h⟩

/-- **C9, witness.** -/
theorem shape_regularity_bounds_witness :
    ([] : List Line).length < 3 ∧ calculate_shape_regularity [] = 0 ∧
      0 ≤ calculate_shape_regularity [] ∧ calculate_shape_regularity [] ≤ 1 :=
  ⟨by decide, (shape_regularity_bounds []).2.2 (by decide),
    (shape_regularity_bounds []).1, (shape_regularity_bounds []).2.1⟩

/-! ### C4: correctness of the connectivity search -/

/-- The adjacency relation of the connectivity graph: both indices refer
to segments of the plan, and some endpoint of one lies within `tol` of
some endpoint of the other (the relation is symmetric in `i, j` since
`linesTouch` tests all four endpoint pairs and `distLe` is symmetric). -/
def lineEdge (all_lines : List (LineG α)) (tol : α) (i j : ℕ) : Prop :=
  i < all_lines.length ∧ j < all_lines.length ∧
    linesTouch (all_lines.getD i dfltLine) (all_lines.getD j dfltLine) tol = true

theorem mem_enum_getD {l : List (LineG α)} {j : ℕ} {line : LineG α}
    (h : (j, line) ∈ l.enum) : j < l.length ∧ l.getD j dfltLine = line := by
  rw [List.mk_mem_enum_iff_getElem?] at h
  obtain ⟨hj, hv⟩ := List.getElem?_eq_some_iff.mp h
  refine ⟨hj, ?_⟩
  rw [List.getD_eq_getElem?_getD, List.getElem?_eq_getElem hj]
  simpa using hv

theorem getD_mem_enum {l : List (LineG α)} {j : ℕ} (hj : j < l.length) :
    (j, l.getD j dfltLine) ∈ l.enum := by
  rw [List.mk_mem_enum_iff_getElem?, List.getD_eq_getElem?_getD,
    List.getElem?_eq_getElem hj]
  rfl

theorem scanConnected_spec (tol : α) (cur : LineG α) :
    ∀ (l : List (ℕ × LineG α)) (conn stk : List ℕ), conn.Nodup →
      ((scanConnected tol cur l (conn, stk)).1.Nodup ∧
       (∀ j ∈ conn, j ∈ (scanConnected tol cur l (conn, stk)).1) ∧
       (∀ j ∈ (scanConnected tol cur l (conn, stk)).1,
         j ∈ conn ∨ ∃ line, (j, line) ∈ l ∧ linesTouch cur line tol = true) ∧
       (∀ j ∈ (scanConnected tol cur l (conn, stk)).1,
         j ∈ conn ∨ j ∈ (scanConnected tol cur l (conn, stk)).2) ∧
       (∀ j ∈ stk, j ∈ (scanConnected tol cur l (conn, stk)).2) ∧
       (∀ j ∈ (scanConnected tol cur l (conn, stk)).2,
         j ∈ stk ∨ j ∈ (scanConnected tol cur l (conn, stk)).1) ∧
       (∀ j line, (j, line) ∈ l → linesTouch cur line tol = true →
         j ∈ (scanConnected tol cur l (conn, stk)).1) ∧
       (scanConnected tol cur l (conn, stk)).1.length + stk.length =
         (scanConnected tol cur l (conn, stk)).2.length + conn.length) := by
  intro l
  induction l with
  | nil =>
    intro conn stk hnd
    simp only [scanConnected]
    exact ⟨hnd, fun j h => h, fun j h => Or.inl h, fun j h => Or.inl h, fun j h => h,
      fun j h => Or.inl h, fun j line h => absurd h (List.not_mem_nil _), by omega⟩
  | cons p rest ih =>
    intro conn stk hnd
    obtain ⟨i, line⟩ := p
    by_cases hi : i ∈ conn
    · obtain ⟨s1, s2, s3, s4, s5, s6, s7, s8⟩ := ih conn stk hnd
      simp only [scanConnected, if_pos hi]
      refine ⟨s1, s2, ?_, s4, s5, s6, ?_, s8⟩
      · intro j hj
        exact (s3 j hj).imp_right fun ⟨line', hm, ht⟩ =>
          ⟨line', List.mem_cons_of_mem _ hm, ht⟩
      · intro j line' hm ht
        rcases List.mem_cons.mp hm with h | h
        · rw [Prod.mk.injEq] at h
          obtain ⟨rfl, rfl⟩ := h
          exact s2 _ hi
        · exact s7 j line' h ht
    · by_cases ht : linesTouch cur line tol = true
      · have hnd' : (conn ++ [i]).Nodup := by
          rw [List.nodup_append]
          exact ⟨hnd, List.nodup_singleton i, fun a ha hb => by
            rw [List.mem_singleton] at hb; exact hi (hb ▸ ha)⟩
        obtain ⟨s1, s2, s3, s4, s5, s6, s7, s8⟩ := ih (conn ++ [i]) (i :: stk) hnd'
        simp only [scanConnected, if_neg hi, if_pos ht]
        refine ⟨s1, ?_, ?_, ?_, ?_, ?_, ?_, ?_⟩
        · exact fun j hj => s2 j (List.mem_append_left _ hj)
        · intro j hj
          rcases s3 j hj with hc | ⟨line', hm, ht'⟩
          · rcases List.mem_append.mp hc with h | h
            · exact Or.inl h
            · rw [List.mem_singleton] at h
              subst h
              exact Or.inr ⟨line, List.mem_cons_self _ _, ht⟩
          · exact Or.inr ⟨line', List.mem_cons_of_mem _ hm, ht'⟩
        · intro j hj
          rcases s4 j hj with hc | hs
          · rcases List.mem_append.mp hc with h | h
            · exact Or.inl h
            · rw [List.mem_singleton] at h
              subst h
              exact Or.inr (s5 _ (List.mem_cons_self _ _))
          · exact Or.inr hs
        · exact fun j hj => s5 j (List.mem_cons_of_mem _ hj)
        · intro j hj
          rcases s6 j hj with hs | hr
          · rcases List.mem_cons.mp hs with h | h
            · subst h
              exact Or.inr (s2 _ (List.mem_append_right _ (List.mem_singleton_self _)))
            · exact Or.inl h
          · exact Or.inr hr
        · intro j line' hm ht'
          rcases List.mem_cons.mp hm with h | h
          · rw [Prod.mk.injEq] at h
            obtain ⟨rfl, rfl⟩ := h
            exact s2 _ (List.mem_append_right _ (List.mem_singleton_self _))
          · exact s7 j line' h ht'
        · simp only [List.length_cons, List.length_append, List.length_singleton,
            List.length_nil] at s8
          omega
      · obtain ⟨s1, s2, s3, s4, s5, s6, s7, s8⟩ := ih conn stk hnd
        simp only [scanConnected, if_neg hi, if_neg ht]
        refine ⟨s1, s2, ?_, s4, s5, s6, ?_, s8⟩
        · intro j hj
          exact (s3 j hj).imp_right fun ⟨line', hm, ht'⟩ =>
            ⟨line', List.mem_cons_of_mem _ hm, ht'⟩
        · intro j line' hm ht'
          rcases List.mem_cons.mp hm with h | h
          · rw [Prod.mk.injEq] at h
            obtain ⟨rfl, rfl⟩ := h
            exact absurd ht' ht
          · exact s7 j line' h ht'

theorem connectedLoop_spec (all_lines : List (LineG α)) (tol : α) (seed : ℕ) :
    ∀ (fuel : ℕ) (conn stk : List ℕ), conn.Nodup →
      (∀ j ∈ conn, j < all_lines.length) →
      (∀ j ∈ conn, Relation.ReflTransGen (lineEdge all_lines tol) seed j) →
      (∀ j ∈ stk, j ∈ conn) →
      (∀ i ∈ conn, i ∉ stk → ∀ j, lineEdge all_lines tol i j → j ∈ conn) →
      stk.length + (all_lines.length - conn.length) < fuel →
      ((connectedLoop all_lines tol fuel conn stk).Nodup ∧
       (∀ j ∈ conn, j ∈ connectedLoop all_lines tol fuel conn stk) ∧
       (∀ j ∈ connectedLoop all_lines tol fuel conn stk, j < all_lines.length) ∧
       (∀ j ∈ connectedLoop all_lines tol fuel conn stk,
         Relation.ReflTransGen (lineEdge all_lines tol) seed j) ∧
       (∀ i ∈ connectedLoop all_lines tol fuel conn stk, ∀ j,
         lineEdge all_lines tol i j → j ∈ connectedLoop all_lines tol fuel conn stk)) := by
  intro fuel
  induction fuel with
  | zero => intro conn stk _ _ _ _ _ hm; omega
  | succ fuel ih =>
    intro conn stk hnd hbnd hreach hsub hclosed hm
    cases stk with
    | nil =>
      simp only [connectedLoop]
      exact ⟨hnd, fun j h => h, hbnd, hreach,
        fun i hi j hij => hclosed i hi (List.not_mem_nil _) j hij⟩
    | cons idx rest =>
      have hidx_conn : idx ∈ conn := hsub idx (List.mem_cons_self _ _)
      have hidx_lt : idx < all_lines.length := hbnd idx hidx_conn
      simp only [connectedLoop]
      obtain ⟨s1, s2, s3, s4, s5, s6, s7, s8⟩ :=
        scanConnected_spec tol (all_lines.getD idx dfltLine) all_lines.enum conn rest hnd
      set st := scanConnected tol (all_lines.getD idx dfltLine) all_lines.enum
        (conn, rest) with hst
      have hrest : ∀ j ∈ rest, j ∈ conn := fun j hj => hsub j (List.mem_cons_of_mem _ hj)
      have hbnd2 : ∀ j ∈ st.1, j < all_lines.length := by
        intro j hj
        rcases s3 j hj with hc | ⟨line, hm', _⟩
        · exact hbnd j hc
        · exact (mem_enum_getD hm').1
      have hedge : ∀ j line, (j, line) ∈ all_lines.enum →
          linesTouch (all_lines.getD idx dfltLine) line tol = true →
          lineEdge all_lines tol idx j := by
        intro j line hm' ht
        obtain ⟨hj, hv⟩ := mem_enum_getD hm'
        exact ⟨hidx_lt, hj, by rw [hv]; exact ht⟩
      have hreach2 : ∀ j ∈ st.1,
          Relation.ReflTransGen (lineEdge all_lines tol) seed j := by
        intro j hj
        rcases s3 j hj with hc | ⟨line, hm', ht⟩
        · exact hreach j hc
        · exact (hreach idx hidx_conn).tail (hedge j line hm' ht)
      have hsub2 : ∀ j ∈ st.2, j ∈ st.1 := by
        intro j hj
        rcases s6 j hj with hs | hr
        · exact s2 j (hrest j hs)
        · exact hr
      have hclosed2 : ∀ i ∈ st.1, i ∉ st.2 → ∀ j, lineEdge all_lines tol i j →
          j ∈ st.1 := by
        intro i hi hnst j hij
        rcases s4 i hi with hic | hist
        · by_cases hii : i = idx
          · subst hii
            obtain ⟨_, hj, htij⟩ := hij
            exact s7 j _ (getD_mem_enum hj) htij
          · have hni : i ∉ (idx :: rest) := by
              intro hmem
              rcases List.mem_cons.mp hmem with h | h
              · exact hii h
              · exact hnst (s5 i h)
            exact s2 j (hclosed i hic hni j hij)
        · exact absurd hist hnst
      have hlen1 : conn.length ≤ st.1.length := by
        have hsubl : conn.toFinset ⊆ st.1.toFinset := by
          intro a ha
          rw [List.mem_toFinset] at ha ⊢
          exact s2 a ha
        calc conn.length = conn.toFinset.card := (List.toFinset_card_of_nodup hnd).symm
          _ ≤ st.1.toFinset.card := Finset.card_le_card hsubl
          _ = st.1.length := List.toFinset_card_of_nodup s1
      have hlen2 : st.1.length ≤ all_lines.length := by
        have hs' : st.1.toFinset ⊆ Finset.range all_lines.length := by
          intro a ha
          rw [List.mem_toFinset] at ha
          rw [Finset.mem_range]
          exact hbnd2 a ha
        calc st.1.length = st.1.toFinset.card := (List.toFinset_card_of_nodup s1).symm
          _ ≤ (Finset.range all_lines.length).card := Finset.card_le_card hs'
          _ = all_lines.length := Finset.card_range _
      have hm2 : st.2.length + (all_lines.length - st.1.length) < fuel := by
        simp only [List.length_cons] at hm
        omega
      obtain ⟨r1, r2, r3, r4, r5⟩ := ih st.1 st.2 s1 hbnd2 hreach2 hsub2 hclosed2 hm2
      exact ⟨r1, fun j hj => r2 j (s2 j hj), r3, r4, r5⟩

/-- **C4.**  For every segment list, in-bounds seed and non-negative
tolerance, `find_connected_lines` returns exactly the indices transitively
reachable from the seed in the endpoint-proximity graph `lineEdge`; it
contains the seed and lists each index exactly once (and, the fuel being
proved sufficient, the search terminates with this result). -/
theorem find_connected_lines_spec (all_lines : List Line) (start_line_index : ℕ)
    (tol : ℚ) (hstart : start_line_index < all_lines.length) (htol : (0 : ℚ) ≤ tol) :
    (∀ j, j ∈ find_connected_lines all_lines start_line_index tol ↔
        Relation.ReflTransGen (lineEdge all_lines tol) start_line_index j) ∧
      start_line_index ∈ find_connected_lines all_lines start_line_index tol ∧
      (find_connected_lines all_lines start_line_index tol).Nodup := by
  have hns : ¬ all_lines.length ≤ start_line_index := by omega
  obtain ⟨r1, r2, r3, r4, r5⟩ := connectedLoop_spec all_lines tol start_line_index
    (all_lines.length + 1) [start_line_index] [start_line_index]
    (List.nodup_singleton _)
    (by intro j hj; rw [List.mem_singleton] at hj; exact hj ▸ hstart)
    (by intro j hj; rw [List.mem_singleton] at hj; exact hj ▸ Relation.ReflTransGen.refl)
    (fun j hj => hj)
    (by intro i hi hni j hij; exact absurd hi hni)
    (by simp only [List.length_singleton]; omega)
  simp only [find_connected_lines, if_neg hns]
  refine ⟨fun j => ⟨fun hj => r4 j hj, fun hr => ?_⟩,
    r2 _ (List.mem_singleton_self _), r1⟩
  induction hr with
  | refl => exact r2 _ (List.mem_singleton_self _)
  | tail hpath hedge ihr => exact r5 _ ihr _ hedge

/-- Every index the connectivity search returns is in bounds. -/
theorem find_connected_lines_bounds (all_lines : List (LineG α)) (start : ℕ)
    (tol : α) : ∀ j ∈ find_connected_lines all_lines start tol,
      j < all_lines.length := by
  intro j hj
  by_cases hs : all_lines.length ≤ start
  · simp [find_connected_lines, hs] at hj
  · obtain ⟨r1, r2, r3, r4, r5⟩ := connectedLoop_spec all_lines tol start
      (all_lines.length + 1) [start] [start]
      (List.nodup_singleton _)
      (by intro j' hj'; rw [List.mem_singleton] at hj'; omega)
      (by intro j' hj'; rw [List.mem_singleton] at hj';
          exact hj' ▸ Relation.ReflTransGen.refl)
      (fun j' hj' => hj')
      (by intro i hi hni j' hij; exact absurd hi hni)
      (by simp only [List.length_singleton]; omega)
    refine r3 j ?_
    simpa [find_connected_lines, hs] using hj

/-- **C4, witness.** -/
theorem find_connected_lines_spec_witness :
    0 < triLines.length ∧ (0 : ℚ) ≤ 10 ∧
      0 ∈ find_connected_lines triLines 0 10 ∧
      (find_connected_lines triLines 0 10).Nodup :=
  ⟨by decide, by decide,
    (find_connected_lines_spec triLines 0 10 (by decide) (by decide)).2.1,
    (find_connected_lines_spec triLines 0 10 (by decide) (by decide)).2.2⟩

/-! ### C10 -/

theorem connected_resolve (all_lines : List Line) (i : ℕ) :
    resolveZoneLines all_lines (find_connected_lines all_lines i 10) =
      (find_connected_lines all_lines i 10).map fun idx =>
        all_lines.getD idx dfltLine := by
  unfold resolveZoneLines
  rw [List.filter_eq_self.mpr]
  intro a ha
  simpa using find_connected_lines_bounds all_lines i 10 a ha

theorem autoDetectLoop_valid (all_lines : List Line) (sc : ℚ) :
    ∀ (l : List (ℕ × Line)) (zm : ZoneManager) (detected : List Zone) (used : List ℕ),
      zm.scale = sc →
      (∀ z ∈ detected, z.is_valid = true ∧
        z.area = calculate_zone_area (resolveZoneLines all_lines z.line_indices) sc) →
      ∀ z ∈ (autoDetectLoop all_lines l zm detected used).2.1,
        z.is_valid = true ∧
          z.area = calculate_zone_area (resolveZoneLines all_lines z.line_indices) sc := by
  intro l
  induction l with
  | nil => intro zm detected used _ hdet z hz; exact hdet z hz
  | cons p rest ih =>
    intro zm detected used hsc hdet
    obtain ⟨i, line⟩ := p
    simp only [autoDetectLoop]
    split_ifs with hiu hlen hval
    · exact ih zm detected used hsc hdet
    · -- create branch
      have hres := connected_resolve all_lines i
      have hlen3 : 3 ≤ (resolveZoneLines all_lines
          (find_connected_lines all_lines i 10)).length := by
        rw [hres, List.length_map]; exact hlen
      rw [create_zone_resolvable zm ("Zona " ++ toString (detected.length + 1)) "otro"
        (find_connected_lines all_lines i 10) all_lines hlen3]
      apply ih _ _ _ (by rw [← hsc])
      intro z hz
      rcases List.mem_append.mp hz with h | h
      · exact hdet z h
      · rw [List.mem_singleton] at h
        subst h
        have hval20 : validate_zone_closure (resolveZoneLines all_lines
            (find_connected_lines all_lines i 10)) 20 = true := by
          rw [hres]
          exact validate_zone_closure_mono (by norm_num) hval
        refine ⟨?_, ?_⟩
        · show validate_zone_closure _ 20 = true
          exact hval20
        · show (if validate_zone_closure _ 20 then _ else 0) = _
          rw [if_pos hval20, hsc]
          rfl
    · exact ih zm detected used hsc hdet
    · exact ih zm detected used hsc hdet

/-- **C10.**  Every zone returned by `auto_detect_zones` is valid and
carries a computed (not defaulted) area: the connected set passed the
tolerance-10 pixel closure check, hence also the tolerance-20
revalidation inside `create_zone` over the same resolved segment list. -/
theorem auto_detect_zones_valid (zm : ZoneManager) (all_lines : List Line) (z : Zone)
    (hz : z ∈ (zm.auto_detect_zones all_lines).2) :
    z.is_valid = true ∧
      z.area = calculate_zone_area (resolveZoneLines all_lines z.line_indices)
        zm.scale := by
  refine autoDetectLoop_valid all_lines zm.scale all_lines.enum zm [] [] rfl
    (by intro z' hz'; exact absurd hz' (List.not_mem_nil _)) z ?_
  simpa [ZoneManager.auto_detect_zones] using hz

/-- **C10, witness.** -/
theorem auto_detect_zones_valid_witness :
    (⟨1, "Zona 1", "otro", [0, 1, 2], some "#F0F0F0", 2, true⟩ : Zone) ∈
        ((initZoneManager 50).auto_detect_zones triLines).2 ∧
      (⟨1, "Zona 1", "otro", [0, 1, 2], some "#F0F0F0", 2, true⟩ : Zone).is_valid =
        true ∧
      (⟨1, "Zona 1", "otro", [0, 1, 2], some "#F0F0F0", 2, true⟩ : Zone).area =
        calculate_zone_area (resolveZoneLines triLines [0, 1, 2])
          (initZoneManager 50).scale :=
  ⟨by decide,
    (auto_detect_zones_valid (initZoneManager 50) triLines _ (by decide)).1,
    (auto_detect_zones_valid (initZoneManager 50) triLines _ (by decide)).2⟩

/-! ### C7 -/

theorem update_zone_next_id (zm : ZoneManager) (zone_id : ℕ)
    (name zone_type : Option String) (li : Option (List ℕ))
    (al : Option (List Line)) :
    (zm.update_zone zone_id name zone_type li al).1.next_id = zm.next_id := by
  unfold ZoneManager.update_zone
  rcases h : updateFirstZone zone_id
    (fun z => applyZoneUpdate zm.scale z name zone_type li al) zm.zones with _ | zs <;>
    simp [h]

theorem delete_zone_next_id (zm : ZoneManager) (zone_id : ℕ) :
    (zm.delete_zone zone_id).1.next_id = zm.next_id := by
  unfold ZoneManager.delete_zone
  rcases h : deleteFirstZone zone_id zm.zones with _ | zs <;> simp [h]

theorem autoDetectLoop_ids (all_lines : List Line) :
    ∀ (l : List (ℕ × Line)) (zm : ZoneManager) (detected : List Zone) (used : List ℕ),
      zm.next_id ≤ (autoDetectLoop all_lines l zm detected used).1.next_id ∧
      ∃ new, (autoDetectLoop all_lines l zm detected used).2.1 = detected ++ new ∧
        List.Chain' (· < ·) (new.map Zone.id) ∧
        ∀ k ∈ new.map Zone.id, zm.next_id ≤ k ∧
          k < (autoDetectLoop all_lines l zm detected used).1.next_id := by
  intro l
  induction l with
  | nil =>
    intro zm detected used
    exact ⟨le_refl _, [], by simp [autoDetectLoop], by simp, by simp⟩
  | cons p rest ih =>
    intro zm detected used
    obtain ⟨i, line⟩ := p
    simp only [autoDetectLoop]
    split_ifs with hiu hlen hval
    · exact ih zm detected used
    · have hres := connected_resolve all_lines i
      have hlen3 : 3 ≤ (resolveZoneLines all_lines
          (find_connected_lines all_lines i 10)).length := by
        rw [hres, List.length_map]; exact hlen
      rw [create_zone_resolvable zm ("Zona " ++ toString (detected.length + 1)) "otro"
        (find_connected_lines all_lines i 10) all_lines hlen3]
      obtain ⟨hmono, new, hdet, hchain, hbnd⟩ := ih
        ({ zm with next_id := zm.next_id + 1
                   zones := zm.zones ++ [createdZone zm
                     ("Zona " ++ toString (detected.length + 1)) "otro"
                     (find_connected_lines all_lines i 10) all_lines] })
        (detected ++ [createdZone zm ("Zona " ++ toString (detected.length + 1)) "otro"
          (find_connected_lines all_lines i 10) all_lines])
        (used ++ find_connected_lines all_lines i 10)
      refine ⟨le_trans (Nat.le_succ _) hmono,
        createdZone zm ("Zona " ++ toString (detected.length + 1)) "otro"
          (find_connected_lines all_lines i 10) all_lines :: new, ?_, ?_, ?_⟩
      · rw [hdet, List.append_assoc, List.singleton_append]
      · rw [List.map_cons, List.chain'_cons']
        refine ⟨fun b hb => ?_, hchain⟩
        have hb' := hbnd b (List.mem_of_mem_head? hb)
        exact Nat.lt_of_lt_of_le (Nat.lt_succ_self _) hb'.1
      · intro k hk
        rw [List.map_cons, List.mem_cons] at hk
        rcases hk with h | h
        · subst h
          refine ⟨le_refl _, lt_of_lt_of_le (Nat.lt_succ_self _) hmono⟩
        · have hk' := hbnd k h
          exact ⟨le_trans (Nat.le_succ _) hk'.1, hk'.2⟩
    · exact ih zm detected used
    · exact ih zm detected used

theorem execOp_ids (zm : ZoneManager) (op : Op) (hop : op ≠ Op.clear) :
    zm.next_id ≤ (execOp zm op).1.next_id ∧
      List.Chain' (· < ·) (execOp zm op).2 ∧
      ∀ k ∈ (execOp zm op).2, zm.next_id ≤ k ∧ k < (execOp zm op).1.next_id := by
  cases op with
  | create name ztype idxs lines =>
    simp only [execOp]
    by_cases h3 : 3 ≤ (resolveZoneLines lines idxs).length
    · rw [create_zone_resolvable zm name ztype idxs lines h3]
      refine ⟨Nat.le_succ _, List.chain'_singleton _, ?_⟩
      intro k hk
      rw [List.mem_singleton] at hk
      subst hk
      exact ⟨le_refl _, Nat.lt_succ_self _⟩
    · rw [create_zone_unresolvable zm name ztype idxs lines (by omega)]
      exact ⟨le_refl _, trivial, fun k hk => absurd hk (List.not_mem_nil _)⟩
  | update zone_id name ztype li al =>
    exact ⟨le_of_eq (update_zone_next_id zm zone_id name ztype li al).symm, trivial,
      fun k hk => absurd hk (List.not_mem_nil _)⟩
  | delete zone_id =>
    exact ⟨le_of_eq (delete_zone_next_id zm zone_id).symm, trivial,
      fun k hk => absurd hk (List.not_mem_nil _)⟩
  | autoDetect lines =>
    obtain ⟨hmono, new, hdet, hchain, hbnd⟩ := autoDetectLoop_ids lines lines.enum zm [] []
    simp only [execOp, ZoneManager.auto_detect_zones]
    rw [List.nil_append] at hdet
    rw [hdet]
    exact ⟨hmono, hchain, hbnd⟩
  | clear => exact absurd rfl hop

theorem execOps_ids (ops : List Op) :
    ∀ zm : ZoneManager, (∀ op ∈ ops, op ≠ Op.clear) →
      zm.next_id ≤ (execOps zm ops).1.next_id ∧
        List.Chain' (· < ·) (execOps zm ops).2 ∧
        ∀ k ∈ (execOps zm ops).2, zm.next_id ≤ k ∧ k < (execOps zm ops).1.next_id := by
  induction ops with
  | nil => intro zm _; exact ⟨le_refl _, trivial, fun k hk => absurd hk (List.not_mem_nil _)⟩
  | cons op rest ih =>
    intro zm hops
    have hop : op ≠ Op.clear := hops op (List.mem_cons_self _ _)
    have hrest : ∀ o ∈ rest, o ≠ Op.clear := fun o ho => hops o (List.mem_cons_of_mem _ ho)
    obtain ⟨m1, c1, b1⟩ := execOp_ids zm op hop
    obtain ⟨m2, c2, b2⟩ := ih (execOp zm op).1 hrest
    simp only [execOps]
    refine ⟨le_trans m1 m2, ?_, ?_⟩
    · rw [List.chain'_append]
      refine ⟨c1, c2, fun x hx y hy => ?_⟩
      have hx' : x ∈ (execOp zm op).2 := List.mem_of_mem_getLast? hx
      have hy' : y ∈ (execOps (execOp zm op).1 rest).2 := List.mem_of_mem_head? hy
      exact lt_of_lt_of_le (b1 x hx').2 (b2 y hy').1
    · intro k hk
      rcases List.mem_append.mp hk with h | h
      · exact ⟨(b1 k h).1, lt_of_lt_of_le (b1 k h).2 m2⟩
      · exact ⟨le_trans m1 (b2 k h).1, (b2 k h).2⟩

/-- **C7** (amended).  Under every sequence of create, update, delete and
auto-detect operations on a fresh manager, zone ids are assigned in
strictly increasing order and never reused.  The correction: this fails
once `clear_all_zones` is allowed, because it resets the id counter to 1
(see the counterexample). -/
theorem zone_ids_monotone_without_clear (scale : ℚ) (ops : List Op)
    (hops : ∀ op ∈ ops, op ≠ Op.clear) :
    List.Chain' (· < ·) (execOps (initZoneManager scale) ops).2 ∧
      (execOps (initZoneManager scale) ops).2.Nodup := by
  have h := (execOps_ids ops (initZoneManager scale) hops).2.1
  refine ⟨h, ?_⟩
  exact (List.chain'_iff_pairwise.mp h).imp fun hlt => Nat.ne_of_lt hlt

/-- **C7, counterexample.**  Create, clear, create: the id 1 is assigned
twice over the lifetime of one manager, because `clear_all_zones` resets
the id counter. -/
theorem zone_id_reused_after_clear_cex :
    (execOps (initZoneManager 50)
        [.create "A" "sala" [0, 1, 2] degLines, .clear,
         .create "B" "sala" [0, 1, 2] degLines]).2 = [1, 1] := by
  decide

/-- **C7, witness.** -/
theorem zone_ids_monotone_without_clear_witness :
    (∀ op ∈ [Op.create "A" "sala" [0, 1, 2] triLines, Op.delete 1,
        Op.create "B" "sala" [0, 1, 2] triLines], op ≠ Op.clear) ∧
      List.Chain' (· < ·) (execOps (initZoneManager 50)
        [Op.create "A" "sala" [0, 1, 2] triLines, Op.delete 1,
         Op.create "B" "sala" [0, 1, 2] triLines]).2 :=
  ⟨by decide,
    (zone_ids_monotone_without_clear 50
      [Op.create "A" "sala" [0, 1, 2] triLines, Op.delete 1,
       Op.create "B" "sala" [0, 1, 2] triLines] (by decide)).1⟩

end DrawingApp
